import Mathlib

set_option maxRecDepth 100000
set_option maxHeartbeats 1000000

/-!
# Verification of the stock strategy backend (`backend/app.py`)

Shallow embedding of the numeric core of `backend/app.py`:
the rounding helper `round_decimal`, the weekly bucket keyer `get_iso_week`,
the percentile engine `calculate_pe_quantile`, the earnings matcher
`match_epsTTM_by_date`, and the four-strategy simulator `run_strategy`.
Money amounts are embedded as exact rationals (`ℚ`); the Python code uses
IEEE floats plus `decimal.Decimal` for display rounding, and the rounding
helper is modelled exactly on `ℚ`.
-/

namespace StockApp

/-- `round_decimal(value, p)` from `app.py`: decimal rounding with
`ROUND_HALF_UP`, i.e. round to `p` decimal places, ties away from zero. -/
def round_decimal (x : ℚ) (p : ℕ) : ℚ :=
  let m : ℚ := 10 ^ p
  (if 0 ≤ x then ((⌊x * m + 1 / 2⌋ : ℤ) : ℚ) else -((⌊-x * m + 1 / 2⌋ : ℤ) : ℚ)) / m

/-- A calendar date `(year, month, day)`, as handled by `datetime.date`. -/
structure Date where
  year : ℕ
  month : ℕ
  day : ℕ
deriving DecidableEq, Repr

/-- `datetime`'s leap-year test. -/
def isLeap (y : ℕ) : Bool := y % 4 == 0 && (y % 100 != 0 || y % 400 == 0)

/-- `datetime._days_before_month`: days in year `y` preceding month `m`
(using the cumulative table plus the leap correction after February). -/
def daysBeforeMonth (y m : ℕ) : ℕ :=
  [0, 0, 31, 59, 90, 120, 151, 181, 212, 243, 273, 304, 334].getD m 0 +
    (if 2 < m ∧ isLeap y then 1 else 0)

/-- `datetime._days_before_year`: days before January 1 of year `y`
in the proleptic Gregorian calendar. -/
def daysBeforeYear (y : ℕ) : ℕ :=
  let z := y - 1
  z * 365 + z / 4 - z / 100 + z / 400

/-- `datetime._ymd2ord`: proleptic Gregorian ordinal
(January 1 of year 1 is day 1). -/
def ymd2ord (d : Date) : ℕ :=
  daysBeforeYear d.year + daysBeforeMonth d.year d.month + d.day

/-- `datetime._isoweek1monday`: ordinal of the Monday starting ISO week 1
of `year` (the week containing the first Thursday of the year). -/
def isoweek1monday (year : ℕ) : ℤ :=
  let firstday : ℤ := ymd2ord ⟨year, 1, 1⟩
  let firstweekday : ℤ := (firstday + 6) % 7
  let week1monday := firstday - firstweekday
  if 3 < firstweekday then week1monday + 7 else week1monday

/-- `date.isocalendar()` restricted to the `(ISO year, ISO week)` pair
(the weekday component is not used by the backend). Python's `divmod` is
floor division, embedded with `Int.fdiv`. -/
def isocalendar (d : Date) : ℕ × ℕ :=
  let today : ℤ := ymd2ord d
  let week : ℤ := (today - isoweek1monday d.year).fdiv 7
  if week < 0 then
    (d.year - 1, ((today - isoweek1monday (d.year - 1)).fdiv 7 + 1).toNat)
  else if 52 ≤ week ∧ isoweek1monday (d.year + 1) ≤ today then
    (d.year + 1, 1)
  else
    (d.year, (week + 1).toNat)

/-- Semantics of the format specifier `{n:02d}`: decimal digits, left-padded
with `0` to width 2. -/
def pad2 (n : ℕ) : String := if n < 10 then "0" ++ toString n else toString n

/-- `get_iso_week` from `app.py`: the weekly bucket key
`f"{date_obj.year}{week_num:02d}"`, where `week_num` is the ISO week number
but the year is the *calendar* year of the date. -/
def get_iso_week (d : Date) : String :=
  toString d.year ++ pad2 (isocalendar d).2

/-! ## Percentile engine (`calculate_pe_quantile`) -/

/-- One cut-point of `np.percentile(sorted, p)` with the default linear
interpolation: virtual index `h = p·(n−1)/100`, result
`a[⌊h⌋] + (h − ⌊h⌋)·(a[⌊h⌋+1] − a[⌊h⌋])` (upper index clipped to `n−1`).
`sorted` is the ascending-sorted data. -/
def interpPercentile (sorted : List ℚ) (p : ℕ) : ℚ :=
  let n := sorted.length
  let h : ℚ := p * ((n : ℚ) - 1) / 100
  let lo := (⌊h⌋).toNat
  let hi := min (lo + 1) (n - 1)
  let a := sorted.getD lo 0
  let b := sorted.getD hi 0
  a + (h - (lo : ℚ)) * (b - a)

/-- `np.percentile(valid_history, np.arange(0, 101))`: the 101-point
percentile ladder over the data `l` (NumPy sorts internally). -/
def percentileLadder (l : List ℚ) : List ℚ :=
  (List.range 101).map (interpPercentile (l.mergeSort (· ≤ ·)))

/-- `np.searchsorted(a, v)` (default `side='left'`) on a sorted array `a`:
the leftmost insertion index, i.e. the number of entries strictly below `v`,
equivalently the lowest position whose entry is `≥ v` (or `a.length` if
none is). -/
def searchsortedLeft (a : List ℚ) (v : ℚ) : ℕ :=
  a.countP (fun c => decide (c < v))

/-- The body of the loop of `calculate_pe_quantile` at index `i`:
`current_pe = pe_list[i]`, `valid_history` the strictly positive prefix
values, `q = searchsorted(percentiles, current_pe)/100`, recorded value
`round_decimal(min(q*100, 100.0), 2)`; `0.0` on every `continue` path. -/
def peQuantileAt (pe_list : List ℚ) (i : ℕ) : ℚ :=
  if i < 20 then 0 else
  if pe_list.getD i 0 ≤ 0 then 0 else
  if ((pe_list.take (i + 1)).filter (fun x => decide (0 < x))).length < 5 then 0 else
  round_decimal
    (min ((searchsortedLeft
        (percentileLadder ((pe_list.take (i + 1)).filter (fun x => decide (0 < x))))
        (pe_list.getD i 0) : ℚ) / 100 * 100) 100) 2

/-- `calculate_pe_quantile` from `app.py`: expanding-window percentile rank
of each value among the strictly positive values seen so far. Entries stay
`0.0` when the whole series is shorter than 21, for the first 20 indices,
for non-positive values, and while fewer than 5 valid values were seen. -/
def calculate_pe_quantile (pe_list : List ℚ) : List ℚ :=
  if pe_list.length < 21 then List.replicate pe_list.length 0 else
  (List.range pe_list.length).map (peQuantileAt pe_list)

/-- Modelled from the spec's wording for the percentile rank: the lowest
ladder position whose cut-point is `≥ v` (the ladder length if none is). -/
def lowestPosGE (l : List ℚ) (v : ℚ) : ℕ :=
  (l.findIdx? (fun c => decide (v ≤ c))).getD l.length

/-- Modelled from the spec's wording (§4.1): build the 101-point ladder over
the valid values in `v[0..i]`, take the lowest position whose cut-point is
`≥ v[i]`, clamp to 100, round half-up to 2 decimals. -/
def pe_quantile_spec (v : List ℚ) (i : ℕ) : ℚ :=
  let valid := (v.take (i + 1)).filter (fun x => decide (0 < x))
  round_decimal (min ((lowestPosGE (percentileLadder valid) (v.getD i 0) : ℚ)) 100) 2

/-! ## Earnings matcher (`match_epsTTM_by_date`) -/

/-- Calendar quarter (1–4) of a month, as computed in `match_epsTTM_by_date`. -/
def quarterOfMonth (m : ℕ) : ℕ :=
  if m ≤ 3 then 1 else if m ≤ 6 then 2 else if m ≤ 9 then 3 else 4

/-- The key `f"{year}-Q{quarter}"` for the calendar quarter containing `d`. -/
def quarterKey (d : Date) : String :=
  toString d.year ++ "-Q" ++ toString (quarterOfMonth d.month)

/-- `match_epsTTM_by_date` from `app.py`. The `eps_ttm_map` dict is embedded
as an association list with pairwise-distinct keys. On a miss the code takes
`sorted(keys, reverse=True)` and returns the value of the first key, i.e. of
the lexicographically greatest key; with an empty map it returns `0.0`. -/
def match_epsTTM_by_date (d : Date) (eps_ttm_map : List (String × ℚ)) : ℚ :=
  if eps_ttm_map.isEmpty then 0 else
  match eps_ttm_map.lookup (quarterKey d) with
  | some v => v
  | none =>
    match (eps_ttm_map.map Prod.fst).mergeSort (fun a b => decide (b ≤ a)) with
    | [] => 0
    | k :: _ => ((eps_ttm_map.lookup k).getD 0)

/-! ## Strategy simulator (`run_strategy`) -/

/-- One record of the input series `raw_data` handed to `run_strategy`
(the fields produced by `get_stock_data`). -/
structure RawRow where
  date : Date
  close : ℚ
  pe : ℚ
  peQuantile : ℚ
  epsTTM : Option ℚ
  note : String
deriving DecidableEq, Repr

/-- The user parameters of `run_strategy`, already parsed to numbers/dates.
`baseRatio` and `feeRate` are still in percent form; `run_strategy` divides
them by 100 exactly as the source does. -/
structure StratParams where
  initialCapital : ℚ
  startDate : Date
  endDate : Date
  investAmount : ℚ
  baseRatio : ℚ
  feeRate : ℚ
  peLowerQuantile : ℚ
  peUpperQuantile : ℚ
deriving DecidableEq, Repr

/-- `datetime.date` comparison (`start_date <= row_date <= end_date`):
lexicographic on `(year, month, day)`. -/
def dateLe (a b : Date) : Bool :=
  if a.year = b.year then
    (if a.month = b.month then decide (a.day ≤ b.day) else decide (a.month < b.month))
  else decide (a.year < b.year)

/-- One per-day output row of `run_strategy` (the `new_row` dict):
the raw fields plus the four strategies' ledger fields. -/
structure Row where
  date : Date
  close : ℚ
  pe : ℚ
  peQuantile : ℚ
  epsTTM : Option ℚ
  note : String
  buyOnceAssets : ℚ
  buyOnceRet : ℚ
  buyOnceProfit : ℚ
  buyOnceInvested : ℚ
  normalAssets : ℚ
  normalRet : ℚ
  normalProfit : ℚ
  normalInvested : ℚ
  baseAssets : ℚ
  baseRet : ℚ
  baseProfit : ℚ
  baseInvested : ℚ
  valAssets : ℚ
  valRet : ℚ
  valProfit : ℚ
  valInvested : ℚ
  valPosition : ℚ
  valSignal : String
  tradeMark : String

/-- Initialisation of `new_row` in the filtering loop of `run_strategy`. -/
def mkRow (initial_capital : ℚ) (r : RawRow) : Row where
  date := r.date
  close := r.close
  pe := r.pe
  peQuantile := r.peQuantile
  epsTTM := r.epsTTM
  note := r.note
  buyOnceAssets := initial_capital
  buyOnceRet := 0
  buyOnceProfit := 0
  buyOnceInvested := initial_capital
  normalAssets := 0
  normalRet := 0
  normalProfit := 0
  normalInvested := 0
  baseAssets := initial_capital
  baseRet := 0
  baseProfit := 0
  baseInvested := 0
  valAssets := initial_capital
  valRet := 0
  valProfit := 0
  valInvested := 0
  valPosition := 0
  valSignal := ""
  tradeMark := ""

/-- A buy/sell marker appended to `buy_sell_markers` by the valuation-band
strategy loop. -/
structure Marker where
  date : Date
  type : String
  buyOnceReturn : ℚ
  normalReturn : ℚ
  baseReturn : ℚ
  valuationReturn : ℚ
deriving DecidableEq, Repr

/-- A generic stateful pass over the rows: each day maps the current state
and the day's row to the new state and the updated row.  The returned list
pairs each day's post-state with its output row (the rows are the
projections `Prod.snd`). -/
def scanStep {σ : Type} (f : σ → Row → σ × Row) : σ → List Row → List (σ × Row)
  | _, [] => []
  | s, r :: rs =>
    let x := f s r
    x :: scanStep f x.1 rs

/-- The state after a stateful pass over all rows. -/
def lastState {σ : Type} (f : σ → Row → σ × Row) : σ → List Row → σ
  | s, [] => s
  | s, r :: rs => lastState f (f s r).1 rs

/-- Strategy 1 (`一次性买入`, LumpSum): the per-day update of the row.
`shares = initial_capital*(1-fee_rate)/price[0]` is computed once. -/
def lumpUpdate (initial_capital shares : ℚ) (r : Row) : Row :=
  let assets := round_decimal (shares * r.close) 2
  let profit := round_decimal (assets - initial_capital) 2
  { r with
    buyOnceAssets := assets
    buyOnceProfit := profit
    buyOnceRet := round_decimal (profit / initial_capital * 100) 2 }

/-- The mutable locals of strategy 2 (`普通定投`, PeriodicInvest). -/
structure NormalState where
  shares : ℚ
  total : ℚ
  weeks : List String
  cash : ℚ
deriving DecidableEq, Repr

/-- One day of strategy 2: invest `min(invest_amount, available cash)` when
the ISO-week key is new and cash covers the periodic amount, then record
the day's ledger fields from the post-trade state. -/
def normalStep (initial_capital invest_amount fee_rate : ℚ) (s : NormalState) (r : Row) :
    NormalState × Row :=
  let wk := get_iso_week r.date
  let s' :=
    if wk ∉ s.weeks ∧ invest_amount ≤ s.cash then
      let actual := min invest_amount s.cash
      { shares := s.shares + actual * (1 - fee_rate) / r.close
        total := s.total + actual
        weeks := wk :: s.weeks
        cash := s.cash - actual }
    else s
  let assets := round_decimal (s'.shares * r.close + s'.cash) 2
  let profit := round_decimal (assets - initial_capital) 2
  (s',
    { r with
      normalAssets := assets
      normalInvested := round_decimal s'.total 2
      normalProfit := profit
      normalRet := round_decimal (if 0 < s'.total then profit / s'.total * 100 else 0) 2 })

/-- The mutable locals of strategy 3 (`底仓+定投`, BasePlusPeriodic). -/
structure BaseState where
  baseShares : ℚ
  floatShares : ℚ
  cash : ℚ
  total : ℚ
  weeks : List String
deriving DecidableEq, Repr

/-- The pre-loop initial state of strategy 3: buy
`initial_capital*base_ratio` (fee-adjusted) at the first day's price. -/
def baseInit (initial_capital base_ratio fee_rate price0 : ℚ) : BaseState :=
  let base_amount := initial_capital * base_ratio
  { baseShares := base_amount * (1 - fee_rate) / price0
    floatShares := 0
    cash := initial_capital - base_amount
    total := base_amount
    weeks := [] }

/-- One day of strategy 3: invest the periodic amount into float shares when
the ISO-week key is new and cash suffices, then record the ledger fields
(denominator of the return is the fixed initial capital). -/
def baseStep (initial_capital invest_amount fee_rate : ℚ) (s : BaseState) (r : Row) :
    BaseState × Row :=
  let wk := get_iso_week r.date
  let s' :=
    if wk ∉ s.weeks ∧ invest_amount ≤ s.cash then
      { s with
        total := s.total + invest_amount
        floatShares := s.floatShares + invest_amount * (1 - fee_rate) / r.close
        cash := s.cash - invest_amount
        weeks := wk :: s.weeks }
    else s
  let assets := round_decimal ((s'.baseShares + s'.floatShares) * r.close + s'.cash) 2
  let profit := round_decimal (assets - initial_capital) 2
  (s',
    { r with
      baseAssets := assets
      baseInvested := round_decimal s'.total 2
      baseProfit := profit
      baseRet := round_decimal (profit / initial_capital * 100) 2 })

/-- The mutable locals of strategy 4 (`估值止盈`, ValuationBand), including
the accumulated `buy_sell_markers` list. -/
structure ValState where
  baseShares : ℚ
  floatShares : ℚ
  cash : ℚ
  total : ℚ
  markers : List Marker
deriving DecidableEq, Repr

/-- The pre-loop initial state of strategy 4: a base position of
`min(initial_capital*0.5, initial_capital)` bought fee-adjusted at the
first day's price. -/
def valInit (initial_capital fee_rate price0 : ℚ) : ValState :=
  let base_amount := min (initial_capital * (1 / 2)) initial_capital
  { baseShares := base_amount * (1 - fee_rate) / price0
    floatShares := 0
    cash := initial_capital - base_amount
    total := base_amount
    markers := [] }

/-- One day of strategy 4.  Buy all cash up to the headroom
`initial_capital - total invested` when the percentile is below the lower
threshold and cash is positive; sell the whole float position when the
percentile is above the upper threshold and float shares are positive;
otherwise hold.  Markers snapshot the row's return fields; note that
`row["估值止盈总资产"]` is read *before* this day's update, so it still holds
its initialised value. -/
def valStep (initial_capital fee_rate pe_lower pe_upper : ℚ) (s : ValState) (r : Row) :
    ValState × Row :=
  let q := r.peQuantile
  let price := r.close
  let (s', signal, mark) :=
    if q < pe_lower ∧ 0 < s.cash then
      let max_buyable := initial_capital - s.total
      if max_buyable ≤ 0 then
        (s, "满仓（总投入已达本金上限）", "")
      else
        let actual := min s.cash max_buyable
        let buy_amount := actual * (1 - fee_rate)
        ({ s with
            floatShares := s.floatShares + buy_amount / price
            total := s.total + actual
            cash := s.cash - actual
            markers := s.markers ++
              [{ date := r.date
                 type := "buy"
                 buyOnceReturn := r.buyOnceRet
                 normalReturn := r.normalRet
                 baseReturn := r.baseRet
                 valuationReturn :=
                   round_decimal ((r.valAssets - initial_capital) / initial_capital * 100) 2 }] },
          "加仓（PE分位点<30%）", "buy")
    else if pe_upper < q ∧ 0 < s.floatShares then
      let sell_amount := s.floatShares * price * (1 - fee_rate)
      ({ s with
          cash := s.cash + sell_amount
          floatShares := 0
          markers := s.markers ++
            [{ date := r.date
               type := "sell"
               buyOnceReturn := r.buyOnceRet
               normalReturn := r.normalRet
               baseReturn := r.baseRet
               valuationReturn :=
                 round_decimal ((r.valAssets - initial_capital) / initial_capital * 100) 2 }] },
        "减仓（PE分位点>70%）", "sell")
    else
      (s, if 0 < q then "持有底仓（PE分位点正常）" else "无PE数据", "")
  let position_value := (s'.baseShares + s'.floatShares) * price
  let assets := round_decimal (position_value + s'.cash) 2
  let profit := round_decimal (assets - initial_capital) 2
  (s',
    { r with
      valSignal := signal
      tradeMark := mark
      valAssets := assets
      valInvested := round_decimal s'.total 2
      valProfit := profit
      valRet := round_decimal (if 0 < s'.total then profit / s'.total * 100 else 0) 2
      valPosition := round_decimal (if 0 < assets then position_value / assets * 100 else 0) 2 })

/-- The summary assembled from the final day's row (`result_summary`). -/
structure Summary where
  buyOnceRet : ℚ
  buyOnceProfit : ℚ
  normalRet : ℚ
  normalProfit : ℚ
  baseRet : ℚ
  baseProfit : ℚ
  valRet : ℚ
  valProfit : ℚ
  valPosition : ℚ

/-- `result_summary` built from `data[-1]`. -/
def mkSummary (r : Row) : Summary where
  buyOnceRet := r.buyOnceRet
  buyOnceProfit := r.buyOnceProfit
  normalRet := r.normalRet
  normalProfit := r.normalProfit
  baseRet := r.baseRet
  baseProfit := r.baseProfit
  valRet := r.valRet
  valProfit := r.valProfit
  valPosition := r.valPosition

/-- The outcome of `run_strategy`: on success the per-day rows (the series
behind `chart_data`), the buy/sell markers and the summary; on failure
`success = false` with the error message and no summary/series. -/
structure RunOutput where
  success : Bool
  rows : List Row
  markers : List Marker
  summary : Option Summary
  error : Option String

/-- The date-range filter at the top of `run_strategy`. -/
def filterRange (p : StratParams) (raw : List RawRow) : List RawRow :=
  raw.filter (fun r => dateLe p.startDate r.date && dateLe r.date p.endDate)

/-- `run_strategy` from `app.py`: filter the series to the requested range,
fail when it is empty, otherwise run the four strategy passes in sequence
over the shared rows and assemble the output. -/
def run_strategy (raw : List RawRow) (p : StratParams) : RunOutput :=
  let initial_capital := p.initialCapital
  let invest_amount := p.investAmount
  let base_ratio := p.baseRatio / 100
  let fee_rate := p.feeRate / 100
  match (filterRange p raw).map (mkRow initial_capital) with
  | [] =>
    { success := false, rows := [], markers := [], summary := none,
      error := some "时间范围内无有效数据" }
  | d0 :: rest =>
    let price0 := d0.close
    let buy_once_shares := initial_capital * (1 - fee_rate) / price0
    let rows1 := (d0 :: rest).map (lumpUpdate initial_capital buy_once_shares)
    let normal_init : NormalState :=
      { shares := 0, total := 0, weeks := [], cash := initial_capital }
    let rows2 := (scanStep (normalStep initial_capital invest_amount fee_rate)
      normal_init rows1).map Prod.snd
    let rows3 := (scanStep (baseStep initial_capital invest_amount fee_rate)
      (baseInit initial_capital base_ratio fee_rate price0) rows2).map Prod.snd
    let val_init := valInit initial_capital fee_rate price0
    let vstep := valStep initial_capital fee_rate p.peLowerQuantile p.peUpperQuantile
    let rows4 := (scanStep vstep val_init rows3).map Prod.snd
    let markers := (lastState vstep val_init rows3).markers
    { success := true
      rows := rows4
      markers := markers
      summary := rows4.getLast?.map mkSummary
      error := none }

/-! ## Helper lemmas -/

theorem round_decimal_zero (p : ℕ) : round_decimal 0 p = 0 := by
  have h : ⌊(0 : ℚ) * 10 ^ p + 1 / 2⌋ = 0 := by
    rw [Int.floor_eq_zero_iff]
    simp only [Set.mem_Ico]
    norm_num
  simp only [round_decimal, le_refl, if_pos, h, Int.cast_zero, zero_div]

/-- Rounding to two decimals moves a value by at most `1/100`. -/
theorem abs_round_decimal_sub_le (x : ℚ) : |round_decimal x 2 - x| ≤ 1 / 100 := by
  rcases le_or_lt 0 x with hx | hx
  · have h1 : (x * 10 ^ 2 + 1 / 2) - 1 ≤ (⌊x * 10 ^ 2 + 1 / 2⌋ : ℚ) :=
      le_of_lt (Int.sub_one_lt_floor _)
    have h2 : (⌊x * 10 ^ 2 + 1 / 2⌋ : ℚ) ≤ x * 10 ^ 2 + 1 / 2 := Int.floor_le _
    rw [round_decimal]
    simp only [hx, if_pos]
    rw [abs_le]
    constructor <;> linarith [h1, h2]
  · have h1 : (-x * 10 ^ 2 + 1 / 2) - 1 ≤ (⌊-x * 10 ^ 2 + 1 / 2⌋ : ℚ) :=
      le_of_lt (Int.sub_one_lt_floor _)
    have h2 : (⌊-x * 10 ^ 2 + 1 / 2⌋ : ℚ) ≤ -x * 10 ^ 2 + 1 / 2 := Int.floor_le _
    rw [round_decimal]
    simp only [not_le.mpr hx, if_neg, not_false_iff]
    rw [abs_le]
    constructor <;> linarith [h1, h2]

/-- Rounding a natural number (cast to `ℚ`) changes nothing. -/
theorem round_decimal_natCast (k : ℕ) : round_decimal (k : ℚ) 2 = k := by
  have h : ⌊(k : ℚ) * 10 ^ 2 + 1 / 2⌋ = (k : ℤ) * 100 := by
    rw [Int.floor_eq_iff]
    push_cast
    constructor <;> linarith
  simp only [round_decimal, if_pos (by positivity : (0:ℚ) ≤ (k : ℚ)), h]
  push_cast
  ring

theorem scanStep_mem {σ : Type} (f : σ → Row → σ × Row) (P : σ → Prop)
    (hP : ∀ s r, P s → P (f s r).1) :
    ∀ (s : σ) (rows : List Row), P s → ∀ x ∈ scanStep f s rows,
      ∃ s0 r0, r0 ∈ rows ∧ P s0 ∧ x = f s0 r0
  | s, [], _, x, hx => by simp [scanStep] at hx
  | s, r :: rs, hs, x, hx => by
    simp only [scanStep, List.mem_cons] at hx
    rcases hx with h | h
    · exact ⟨s, r, List.mem_cons_self r rs, hs, h⟩
    · obtain ⟨s0, r0, hr0, hP0, hx0⟩ :=
        scanStep_mem f P hP (f s r).1 rs (hP s r hs) x h
      exact ⟨s0, r0, List.mem_cons_of_mem _ hr0, hP0, hx0⟩

theorem scanStep_chain {σ : Type} (f : σ → Row → σ × Row) (P : σ → Prop) (R : σ → σ → Prop)
    (hP : ∀ s r, P s → P (f s r).1) (hR : ∀ s r, P s → R s (f s r).1) :
    ∀ (s : σ) (rows : List Row), P s →
      List.Chain R s ((scanStep f s rows).map Prod.fst)
  | _, [], _ => by simp [scanStep]
  | s, r :: rs, hs => by
    simp only [scanStep, List.map_cons]
    exact List.Chain.cons (hR s r hs) (scanStep_chain f P R hP hR (f s r).1 rs (hP s r hs))

theorem getD_map_range {f : ℕ → ℚ} {n i : ℕ} (h : i < n) :
    ((List.range n).map f).getD i 0 = f i := by
  rw [List.getD_eq_getElem?_getD, List.getElem?_map, List.getElem?_range h]
  rfl

/-! ## Claim theorems -/

/-- C8: if the input series filtered to `[start, end]` is empty, the
simulation fails before any strategy runs and the failure is converted at
the boundary into the output shape with `success = false` and the error
message set, with no summary and no series (no uncaught exception). -/
theorem run_strategy_empty_range_failure (raw : List RawRow) (p : StratParams)
    (h : filterRange p raw = []) :
    run_strategy raw p =
      { success := false, rows := [], markers := [], summary := none,
        error := some "时间范围内无有效数据" } := by
  unfold run_strategy
  rw [h]
  rfl

/-- Witness for C8 at a concrete input: one record dated 2020-01-06 with an
analysis range in 2023, so the filtered sequence is empty. -/
theorem run_strategy_empty_range_failure_witness :
    filterRange ⟨10000, ⟨2023, 1, 1⟩, ⟨2023, 12, 31⟩, 1000, 50, 1/10, 30, 70⟩
        [⟨⟨2020, 1, 6⟩, 100, 10, 0, none, ""⟩] = [] ∧
      run_strategy [⟨⟨2020, 1, 6⟩, 100, 10, 0, none, ""⟩]
          ⟨10000, ⟨2023, 1, 1⟩, ⟨2023, 12, 31⟩, 1000, 50, 1/10, 30, 70⟩ =
        { success := false, rows := [], markers := [], summary := none,
          error := some "时间范围内无有效数据" } :=
  ⟨by decide, run_strategy_empty_range_failure _ _ (by decide)⟩

/-- C4: the recorded percentile is 0 whenever the whole series has fewer
than 21 values, or fewer than 21 values occurred by index `i`, or fewer
than 5 valid (strictly positive) values occurred by `i`, or `v[i]` itself
is non-positive. -/
theorem pe_quantile_zero_cases (v : List ℚ) (i : ℕ) (hi : i < v.length)
    (h : v.length < 21 ∨ i < 20 ∨
      ((v.take (i + 1)).filter (fun x => decide (0 < x))).length < 5 ∨ v.getD i 0 ≤ 0) :
    (calculate_pe_quantile v).getD i 0 = 0 := by
  unfold calculate_pe_quantile
  by_cases hlen : v.length < 21
  · rw [if_pos hlen, List.getD_eq_getElem?_getD, List.getElem?_replicate]
    split <;> rfl
  · rw [if_neg hlen, getD_map_range hi]
    unfold peQuantileAt
    rcases h with h | h | h | h
    · exact absurd h hlen
    · rw [if_pos h]
    · split_ifs <;> rfl
    · split_ifs <;> rfl

/-- Witness for C4: a one-element series (shorter than 21) yields 0. -/
theorem pe_quantile_zero_cases_witness :
    (calculate_pe_quantile [(5 : ℚ)]).getD 0 0 = 0 :=
  pe_quantile_zero_cases [(5 : ℚ)] 0 (by decide) (Or.inl (by decide))

/-- C6: in the PeriodicInvest strategy a buy occurs exactly when the day's
week key has not been invested yet and available cash covers the periodic
amount; the buy invests `min(invest_amount, cash)` net of fee, decrements
cash and records the week (otherwise the state is unchanged); and the
recorded return is cumulative profit over cumulative invested times 100
(0 when nothing was invested yet) — the denominator is cumulative
invested, not initial capital. -/
theorem periodic_invest_step_spec (initial_capital invest_amount fee_rate : ℚ)
    (s : NormalState) (r : Row) :
    ((get_iso_week r.date ∉ s.weeks ∧ invest_amount ≤ s.cash →
        (normalStep initial_capital invest_amount fee_rate s r).1 =
          { shares := s.shares + min invest_amount s.cash * (1 - fee_rate) / r.close
            total := s.total + min invest_amount s.cash
            weeks := get_iso_week r.date :: s.weeks
            cash := s.cash - min invest_amount s.cash }) ∧
      (¬(get_iso_week r.date ∉ s.weeks ∧ invest_amount ≤ s.cash) →
        (normalStep initial_capital invest_amount fee_rate s r).1 = s)) ∧
    (normalStep initial_capital invest_amount fee_rate s r).2.normalRet =
      round_decimal
        (if 0 < (normalStep initial_capital invest_amount fee_rate s r).1.total then
          (normalStep initial_capital invest_amount fee_rate s r).2.normalProfit /
            (normalStep initial_capital invest_amount fee_rate s r).1.total * 100
        else 0) 2 := by
  refine ⟨⟨fun h => ?_, fun h => ?_⟩, ?_⟩
  · simp only [normalStep, if_pos h]
  · simp only [normalStep, if_neg h]
  · by_cases h : get_iso_week r.date ∉ s.weeks ∧ invest_amount ≤ s.cash
    · simp only [normalStep, if_pos h]
    · simp only [normalStep, if_neg h]

/-- Witness for C6: day one of a fresh PeriodicInvest state buys
`min(1000, 10000)` at fee 0.1%. -/
theorem periodic_invest_step_spec_witness :
    (normalStep 10000 1000 (1/1000) ⟨0, 0, [], 10000⟩
        (mkRow 10000 ⟨⟨2023, 1, 3⟩, 100, 10, 0, none, ""⟩)).1 =
      { shares := 0 + min 1000 10000 * (1 - 1/1000) / 100
        total := 0 + min 1000 10000
        weeks := get_iso_week ⟨2023, 1, 3⟩ :: []
        cash := 10000 - min 1000 10000 } :=
  (periodic_invest_step_spec 10000 1000 (1/1000) ⟨0, 0, [], 10000⟩
      (mkRow 10000 ⟨⟨2023, 1, 3⟩, 100, 10, 0, none, ""⟩)).1.1
    (by with_unfolding_all decide)

/-- C10 (implicit): with a positive lower threshold, a valuation percentile
of 0 satisfies the buy trigger, so on any zero-percentile day with positive
cash and invested below the capital cap the ValuationBand strategy buys
`min(cash, headroom)`; on day 0 (right after the base allocation) this
deploys all remaining cash; and the "no valuation data" annotation appears
only on non-positive-percentile days on which no trade fired (with cash
exhausted whenever the percentile is below the lower threshold). -/
theorem valuation_zero_percentile_buys (initial_capital fee_rate price0 pe_lower pe_upper : ℚ)
    (s : ValState) (r : Row) :
    (r.peQuantile = 0 → 0 < pe_lower → 0 < s.cash → s.total < initial_capital →
      (valStep initial_capital fee_rate pe_lower pe_upper s r).2.tradeMark = "buy" ∧
      (valStep initial_capital fee_rate pe_lower pe_upper s r).1.total =
        s.total + min s.cash (initial_capital - s.total) ∧
      (valStep initial_capital fee_rate pe_lower pe_upper s r).1.cash =
        s.cash - min s.cash (initial_capital - s.total)) ∧
    (0 < initial_capital → 0 < pe_lower → r.peQuantile = 0 →
      (valStep initial_capital fee_rate pe_lower pe_upper
          (valInit initial_capital fee_rate price0) r).1.cash = 0 ∧
      (valStep initial_capital fee_rate pe_lower pe_upper
          (valInit initial_capital fee_rate price0) r).1.total = initial_capital ∧
      (valStep initial_capital fee_rate pe_lower pe_upper
          (valInit initial_capital fee_rate price0) r).2.tradeMark = "buy") ∧
    ((valStep initial_capital fee_rate pe_lower pe_upper s r).2.valSignal = "无PE数据" →
      r.peQuantile ≤ 0 ∧
      (valStep initial_capital fee_rate pe_lower pe_upper s r).2.tradeMark = "" ∧
      (r.peQuantile < pe_lower → ¬ 0 < s.cash)) := by
  refine ⟨fun hq hlo hcash htot => ?_, fun hcap hlo hq => ?_, fun hsig => ?_⟩
  · have h1 : r.peQuantile < pe_lower ∧ 0 < s.cash := ⟨hq ▸ hlo, hcash⟩
    have h2 : ¬(initial_capital - s.total ≤ 0) := by linarith
    simp only [valStep, if_pos h1, if_neg h2]
    exact ⟨trivial, trivial, trivial⟩
  · have hbase : min (initial_capital * (1 / 2)) initial_capital =
        initial_capital * (1 / 2) := min_eq_left (by linarith)
    have hc : (valInit initial_capital fee_rate price0).cash = initial_capital * (1 / 2) := by
      simp only [valInit, hbase]
      ring
    have ht : (valInit initial_capital fee_rate price0).total = initial_capital * (1 / 2) := by
      simp only [valInit, hbase]
    have hcash : 0 < (valInit initial_capital fee_rate price0).cash := by
      rw [hc]; linarith
    have htot : (valInit initial_capital fee_rate price0).total < initial_capital := by
      rw [ht]; linarith
    have h1 : r.peQuantile < pe_lower ∧
        0 < (valInit initial_capital fee_rate price0).cash := ⟨hq ▸ hlo, hcash⟩
    have h2 : ¬(initial_capital - (valInit initial_capital fee_rate price0).total ≤ 0) := by
      linarith
    simp only [valStep, if_pos h1, if_neg h2]
    refine ⟨?_, ?_, trivial⟩
    · simp only [hc, ht]
      rw [min_eq_right (by linarith)]
      ring
    · simp only [hc, ht]
      rw [min_eq_right (by linarith)]
      ring
  · by_cases h1 : r.peQuantile < pe_lower ∧ 0 < s.cash
    · by_cases h2 : initial_capital - s.total ≤ 0
      · simp only [valStep, if_pos h1, if_pos h2] at hsig
        exact absurd hsig (by decide)
      · simp only [valStep, if_pos h1, if_neg h2] at hsig
        exact absurd hsig (by decide)
    · by_cases h2 : pe_upper < r.peQuantile ∧ 0 < s.floatShares
      · simp only [valStep, if_neg h1, if_pos h2] at hsig
        exact absurd hsig (by decide)
      · simp only [valStep, if_neg h1, if_neg h2] at hsig ⊢
        by_cases h3 : 0 < r.peQuantile
        · rw [if_pos h3] at hsig
          exact absurd hsig (by decide)
        · refine ⟨le_of_not_lt h3, trivial, fun hql => ?_⟩
          intro hc
          exact h1 ⟨hql, hc⟩

/-- Witness for C10: day 0 of the one-day scenario (percentile 0, lower
threshold 30) fully deploys the remaining cash. -/
theorem valuation_zero_percentile_buys_witness :
    (valStep 10000 (1/1000) 30 70 (valInit 10000 (1/1000) 100)
        (mkRow 10000 ⟨⟨2023, 1, 3⟩, 100, 10, 0, none, ""⟩)).1.cash = 0 ∧
    (valStep 10000 (1/1000) 30 70 (valInit 10000 (1/1000) 100)
        (mkRow 10000 ⟨⟨2023, 1, 3⟩, 100, 10, 0, none, ""⟩)).1.total = 10000 ∧
    (valStep 10000 (1/1000) 30 70 (valInit 10000 (1/1000) 100)
        (mkRow 10000 ⟨⟨2023, 1, 3⟩, 100, 10, 0, none, ""⟩)).2.tradeMark = "buy" :=
  (valuation_zero_percentile_buys 10000 (1/1000) 100 30 70
      (valInit 10000 (1/1000) 100)
      (mkRow 10000 ⟨⟨2023, 1, 3⟩, 100, 10, 0, none, ""⟩)).2.1
    (by norm_num) (by norm_num) rfl

/-- Cash/invested bookkeeping of one PeriodicInvest day: cash stays
non-negative, `invested + cash = initial capital` is preserved, and the
cumulative invested total never decreases. -/
theorem normalStep_invariant (cap amt fee : ℚ) (hamt : 0 ≤ amt) (s : NormalState) (r : Row)
    (h : 0 ≤ s.cash ∧ s.total + s.cash = cap) :
    (0 ≤ (normalStep cap amt fee s r).1.cash ∧
      (normalStep cap amt fee s r).1.total + (normalStep cap amt fee s r).1.cash = cap) ∧
    s.total ≤ (normalStep cap amt fee s r).1.total := by
  obtain ⟨hc, hs⟩ := h
  by_cases hg : get_iso_week r.date ∉ s.weeks ∧ amt ≤ s.cash
  · have hmin1 : min amt s.cash ≤ s.cash := min_le_right _ _
    have hmin0 : 0 ≤ min amt s.cash := le_min hamt hc
    simp only [normalStep, if_pos hg]
    refine ⟨⟨?_, ?_⟩, ?_⟩ <;> linarith
  · simp only [normalStep, if_neg hg]
    exact ⟨⟨hc, hs⟩, le_refl _⟩

/-- Cash/invested bookkeeping of one BasePlusPeriodic day. -/
theorem baseStep_invariant (cap amt fee : ℚ) (hamt : 0 ≤ amt) (s : BaseState) (r : Row)
    (h : 0 ≤ s.cash ∧ s.total + s.cash = cap) :
    (0 ≤ (baseStep cap amt fee s r).1.cash ∧
      (baseStep cap amt fee s r).1.total + (baseStep cap amt fee s r).1.cash = cap) ∧
    s.total ≤ (baseStep cap amt fee s r).1.total := by
  obtain ⟨hc, hs⟩ := h
  by_cases hg : get_iso_week r.date ∉ s.weeks ∧ amt ≤ s.cash
  · simp only [baseStep, if_pos hg]
    refine ⟨⟨?_, ?_⟩, ?_⟩ <;> linarith [hg.2]
  · simp only [baseStep, if_neg hg]
    exact ⟨⟨hc, hs⟩, le_refl _⟩

/-- Invested bookkeeping of one ValuationBand day: the cumulative invested
total never decreases and, thanks to the headroom cap
`min(cash, initial_capital - invested)`, never exceeds the initial
capital. -/
theorem valStep_invariant (cap fee lo hi : ℚ) (s : ValState) (r : Row)
    (h : s.total ≤ cap) :
    (valStep cap fee lo hi s r).1.total ≤ cap ∧
    s.total ≤ (valStep cap fee lo hi s r).1.total := by
  by_cases h1 : r.peQuantile < lo ∧ 0 < s.cash
  · by_cases h2 : cap - s.total ≤ 0
    · simp only [valStep, if_pos h1, if_pos h2]
      exact ⟨h, le_refl _⟩
    · have hmin1 : min s.cash (cap - s.total) ≤ cap - s.total := min_le_right _ _
      have hmin0 : 0 ≤ min s.cash (cap - s.total) := le_min (le_of_lt h1.2) (by linarith)
      simp only [valStep, if_pos h1, if_neg h2]
      refine ⟨?_, ?_⟩ <;> linarith
  · by_cases h2 : hi < r.peQuantile ∧ 0 < s.floatShares
    · simp only [valStep, if_neg h1, if_pos h2]
      exact ⟨h, le_refl _⟩
    · simp only [valStep, if_neg h1, if_neg h2]
      exact ⟨h, le_refl _⟩

/-- C5: under the documented preconditions, cumulative invested is
non-decreasing day-over-day for all four strategies (`List.Chain` over the
state trace, starting at the pre-loop state); it never exceeds the initial
capital for LumpSum (where it is constantly the initial capital),
PeriodicInvest and BasePlusPeriodic; and for ValuationBand it never exceeds
the initial capital on any day — in particular at every buy decision. -/
theorem invested_monotone_and_capped (cap amt ratio fee lo hi price0 : ℚ)
    (hcap : 0 < cap) (hamt : 0 ≤ amt) (_hr0 : 0 ≤ ratio) (hr1 : ratio ≤ 1)
    (rawRows : List RawRow) (rowsA rowsB rowsC : List Row) :
    (∀ x ∈ (rawRows.map (mkRow cap)).map (lumpUpdate cap (cap * (1 - fee) / price0)),
        x.buyOnceInvested = cap) ∧
    (List.Chain (fun a b : NormalState => a.total ≤ b.total) ⟨0, 0, [], cap⟩
        ((scanStep (normalStep cap amt fee) ⟨0, 0, [], cap⟩ rowsA).map Prod.fst) ∧
      ∀ x ∈ scanStep (normalStep cap amt fee) ⟨0, 0, [], cap⟩ rowsA, x.1.total ≤ cap) ∧
    (List.Chain (fun a b : BaseState => a.total ≤ b.total) (baseInit cap ratio fee price0)
        ((scanStep (baseStep cap amt fee) (baseInit cap ratio fee price0) rowsB).map
          Prod.fst) ∧
      ∀ x ∈ scanStep (baseStep cap amt fee) (baseInit cap ratio fee price0) rowsB,
        x.1.total ≤ cap) ∧
    (List.Chain (fun a b : ValState => a.total ≤ b.total) (valInit cap fee price0)
        ((scanStep (valStep cap fee lo hi) (valInit cap fee price0) rowsC).map Prod.fst) ∧
      ∀ x ∈ scanStep (valStep cap fee lo hi) (valInit cap fee price0) rowsC,
        x.2.tradeMark = "buy" → x.1.total ≤ cap) := by
  have hPn : ∀ (s : NormalState) (r : Row), (0 ≤ s.cash ∧ s.total + s.cash = cap) →
      0 ≤ (normalStep cap amt fee s r).1.cash ∧
        (normalStep cap amt fee s r).1.total + (normalStep cap amt fee s r).1.cash = cap :=
    fun s r h => (normalStep_invariant cap amt fee hamt s r h).1
  have hPb : ∀ (s : BaseState) (r : Row), (0 ≤ s.cash ∧ s.total + s.cash = cap) →
      0 ≤ (baseStep cap amt fee s r).1.cash ∧
        (baseStep cap amt fee s r).1.total + (baseStep cap amt fee s r).1.cash = cap :=
    fun s r h => (baseStep_invariant cap amt fee hamt s r h).1
  have hPv : ∀ (s : ValState) (r : Row), s.total ≤ cap →
      (valStep cap fee lo hi s r).1.total ≤ cap :=
    fun s r h => (valStep_invariant cap fee lo hi s r h).1
  have hIn : (0 : ℚ) ≤ (⟨0, 0, [], cap⟩ : NormalState).cash ∧
      (⟨0, 0, [], cap⟩ : NormalState).total + (⟨0, 0, [], cap⟩ : NormalState).cash = cap := by
    constructor
    · exact le_of_lt hcap
    · simp
  have hIb : 0 ≤ (baseInit cap ratio fee price0).cash ∧
      (baseInit cap ratio fee price0).total + (baseInit cap ratio fee price0).cash = cap := by
    constructor
    · simp only [baseInit]
      nlinarith
    · simp only [baseInit]
      ring
  have hIv : (valInit cap fee price0).total ≤ cap := by
    simp only [valInit]
    exact min_le_right _ _
  refine ⟨?_, ⟨?_, ?_⟩, ⟨?_, ?_⟩, ⟨?_, ?_⟩⟩
  · intro x hx
    simp only [List.mem_map] at hx
    obtain ⟨r1, ⟨raw, _, hr1⟩, hx⟩ := hx
    rw [← hx, ← hr1]
    rfl
  · exact scanStep_chain _ _ _ hPn
      (fun s r h => (normalStep_invariant cap amt fee hamt s r h).2) _ rowsA hIn
  · intro x hx
    obtain ⟨s0, r0, _, hP0, hx0⟩ := scanStep_mem _ _ hPn _ rowsA hIn x hx
    have := hPn s0 r0 hP0
    rw [hx0]
    linarith [this.1, this.2]
  · exact scanStep_chain _ _ _ hPb
      (fun s r h => (baseStep_invariant cap amt fee hamt s r h).2) _ rowsB hIb
  · intro x hx
    obtain ⟨s0, r0, _, hP0, hx0⟩ := scanStep_mem _ _ hPb _ rowsB hIb x hx
    have := hPb s0 r0 hP0
    rw [hx0]
    linarith [this.1, this.2]
  · exact scanStep_chain _ _ _ hPv
      (fun s r h => (valStep_invariant cap fee lo hi s r h).2) _ rowsC hIv
  · intro x hx _
    obtain ⟨s0, r0, _, hP0, hx0⟩ := scanStep_mem _ _ hPv _ rowsC hIv x hx
    rw [hx0]
    exact hPv s0 r0 hP0

/-- Witness for C5: in the one-day scenario the PeriodicInvest invested
total stays below the initial capital. -/
theorem invested_monotone_and_capped_witness :
    (normalStep 10000 1000 (1/1000) ⟨0, 0, [], 10000⟩
        (mkRow 10000 ⟨⟨2023, 1, 3⟩, 100, 10, 0, none, ""⟩)).1.total ≤ 10000 :=
  (invested_monotone_and_capped 10000 1000 (1/2) (1/1000) 30 70 100
      (by norm_num) (by norm_num) (by norm_num) (by norm_num) []
      [mkRow 10000 ⟨⟨2023, 1, 3⟩, 100, 10, 0, none, ""⟩] [] []).2.1.2
    _ (by simp [scanStep])

/-- C1: on every day of every strategy, the recorded total asset value is
within `0.01` of `shares·price + cash` for the day's post-trade state
(LumpSum holds no cash after its day-0 purchase; BasePlusPeriodic and
ValuationBand hold base plus float shares). -/
theorem assets_eq_shares_price_plus_cash (cap amt ratio fee lo hi price0 : ℚ)
    (rawRows : List RawRow) (rowsA rowsB rowsC : List Row) :
    (∀ x ∈ (rawRows.map (mkRow cap)).map (lumpUpdate cap (cap * (1 - fee) / price0)),
        |x.buyOnceAssets - (cap * (1 - fee) / price0 * x.close + 0)| ≤ 1 / 100) ∧
    (∀ x ∈ scanStep (normalStep cap amt fee) ⟨0, 0, [], cap⟩ rowsA,
        |x.2.normalAssets - (x.1.shares * x.2.close + x.1.cash)| ≤ 1 / 100) ∧
    (∀ x ∈ scanStep (baseStep cap amt fee) (baseInit cap ratio fee price0) rowsB,
        |x.2.baseAssets - ((x.1.baseShares + x.1.floatShares) * x.2.close + x.1.cash)| ≤
          1 / 100) ∧
    (∀ x ∈ scanStep (valStep cap fee lo hi) (valInit cap fee price0) rowsC,
        |x.2.valAssets - ((x.1.baseShares + x.1.floatShares) * x.2.close + x.1.cash)| ≤
          1 / 100) := by
  refine ⟨?_, ?_, ?_, ?_⟩
  · intro x hx
    simp only [List.mem_map] at hx
    obtain ⟨r1, ⟨raw, _, hr1⟩, hx⟩ := hx
    have hkey : x.buyOnceAssets =
        round_decimal (cap * (1 - fee) / price0 * x.close) 2 := by
      rw [← hx]
      rfl
    rw [hkey, add_zero]
    exact abs_round_decimal_sub_le _
  · intro x hx
    obtain ⟨s0, r0, _, _, hx0⟩ :=
      scanStep_mem _ (fun _ => True) (fun _ _ _ => trivial) _ rowsA trivial x hx
    have hkey : x.2.normalAssets =
        round_decimal (x.1.shares * x.2.close + x.1.cash) 2 := by
      rw [hx0]
      rfl
    rw [hkey]
    exact abs_round_decimal_sub_le _
  · intro x hx
    obtain ⟨s0, r0, _, _, hx0⟩ :=
      scanStep_mem _ (fun _ => True) (fun _ _ _ => trivial) _ rowsB trivial x hx
    have hkey : x.2.baseAssets =
        round_decimal ((x.1.baseShares + x.1.floatShares) * x.2.close + x.1.cash) 2 := by
      rw [hx0]
      rfl
    rw [hkey]
    exact abs_round_decimal_sub_le _
  · intro x hx
    obtain ⟨s0, r0, _, _, hx0⟩ :=
      scanStep_mem _ (fun _ => True) (fun _ _ _ => trivial) _ rowsC trivial x hx
    have hkey : x.2.valAssets =
        round_decimal ((x.1.baseShares + x.1.floatShares) * x.2.close + x.1.cash) 2 := by
      rw [hx0]
      rfl
    rw [hkey]
    exact abs_round_decimal_sub_le _

/-- Witness for C1: the ledger identity at the single day of the concrete
scenario, for the PeriodicInvest strategy. -/
theorem assets_eq_shares_price_plus_cash_witness :
    |(normalStep 10000 1000 (1/1000) ⟨0, 0, [], 10000⟩
          (mkRow 10000 ⟨⟨2023, 1, 3⟩, 100, 10, 0, none, ""⟩)).2.normalAssets -
        ((normalStep 10000 1000 (1/1000) ⟨0, 0, [], 10000⟩
            (mkRow 10000 ⟨⟨2023, 1, 3⟩, 100, 10, 0, none, ""⟩)).1.shares *
          (normalStep 10000 1000 (1/1000) ⟨0, 0, [], 10000⟩
            (mkRow 10000 ⟨⟨2023, 1, 3⟩, 100, 10, 0, none, ""⟩)).2.close +
          (normalStep 10000 1000 (1/1000) ⟨0, 0, [], 10000⟩
            (mkRow 10000 ⟨⟨2023, 1, 3⟩, 100, 10, 0, none, ""⟩)).1.cash)| ≤ 1 / 100 :=
  (assets_eq_shares_price_plus_cash 10000 1000 (1/2) (1/1000) 30 70 100 []
      [mkRow 10000 ⟨⟨2023, 1, 3⟩, 100, 10, 0, none, ""⟩] [] []).2.1
    _ (by simp [scanStep])

/-- One ValuationBand day appends at most one marker; when it does, the
marker's direction equals the day's trade mark, its date and the three
other strategies' returns are the day-row's fields, and its valuation
return is computed from the row's *input* `估值止盈总资产` field. -/
theorem valStep_markers (cap fee lo hi : ℚ) (s : ValState) (r : Row) :
    (valStep cap fee lo hi s r).1.markers = s.markers ∨
    ∃ mk : Marker,
      (valStep cap fee lo hi s r).1.markers = s.markers ++ [mk] ∧
      (mk.type = "buy" ∨ mk.type = "sell") ∧
      (valStep cap fee lo hi s r).2.tradeMark = mk.type ∧
      mk.date = (valStep cap fee lo hi s r).2.date ∧
      mk.buyOnceReturn = (valStep cap fee lo hi s r).2.buyOnceRet ∧
      mk.normalReturn = (valStep cap fee lo hi s r).2.normalRet ∧
      mk.baseReturn = (valStep cap fee lo hi s r).2.baseRet ∧
      mk.valuationReturn = round_decimal ((r.valAssets - cap) / cap * 100) 2 := by
  by_cases h1 : r.peQuantile < lo ∧ 0 < s.cash
  · by_cases h2 : cap - s.total ≤ 0
    · left
      simp only [valStep, if_pos h1, if_pos h2]
    · right
      refine ⟨⟨r.date, "buy", r.buyOnceRet, r.normalRet, r.baseRet,
          round_decimal ((r.valAssets - cap) / cap * 100) 2⟩,
        ?_, Or.inl rfl, ?_, ?_, ?_, ?_, ?_, rfl⟩ <;>
        simp only [valStep, if_pos h1, if_neg h2]
  · by_cases h2 : hi < r.peQuantile ∧ 0 < s.floatShares
    · right
      refine ⟨⟨r.date, "sell", r.buyOnceRet, r.normalRet, r.baseRet,
          round_decimal ((r.valAssets - cap) / cap * 100) 2⟩,
        ?_, Or.inr rfl, ?_, ?_, ?_, ?_, ?_, rfl⟩ <;>
        simp only [valStep, if_neg h1, if_pos h2]
    · left
      simp only [valStep, if_neg h1, if_neg h2]

/-- Every marker accumulated over a ValuationBand pass either was there
initially or stems from one day of the pass. -/
theorem lastState_valStep_markers (cap fee lo hi : ℚ) :
    ∀ (rows : List Row) (s : ValState) (m : Marker),
      m ∈ (lastState (valStep cap fee lo hi) s rows).markers →
      m ∈ s.markers ∨
      ∃ x ∈ scanStep (valStep cap fee lo hi) s rows,
        (m.type = "buy" ∨ m.type = "sell") ∧ x.2.tradeMark = m.type ∧
        m.date = x.2.date ∧ m.buyOnceReturn = x.2.buyOnceRet ∧
        m.normalReturn = x.2.normalRet ∧ m.baseReturn = x.2.baseRet ∧
        ∃ r0 ∈ rows, m.valuationReturn = round_decimal ((r0.valAssets - cap) / cap * 100) 2
  | [], s, m, hm => Or.inl hm
  | r :: rs, s, m, hm => by
    have hm' : m ∈ (lastState (valStep cap fee lo hi)
        (valStep cap fee lo hi s r).1 rs).markers := hm
    rcases lastState_valStep_markers cap fee lo hi rs (valStep cap fee lo hi s r).1 m hm' with
      h | ⟨x, hx, hbs, hmark, hdate, hb, hn, hba, r0, hr0, hvr⟩
    · rcases valStep_markers cap fee lo hi s r with heq | ⟨mk, heq, hk1, hk2, hk3, hk4, hk5, hk6, hk7⟩
      · rw [heq] at h
        exact Or.inl h
      · rw [heq, List.mem_append, List.mem_singleton] at h
        rcases h with h | rfl
        · exact Or.inl h
        · refine Or.inr ⟨valStep cap fee lo hi s r, List.mem_cons_self _ _,
            hk1, hk2, hk3, hk4, hk5, hk6, r, List.mem_cons_self _ _, hk7⟩
    · exact Or.inr ⟨x, List.mem_cons_of_mem _ hx, hbs, hmark, hdate, hb, hn, hba,
        r0, List.mem_cons_of_mem _ hr0, hvr⟩

/-- Pass-generic fact: a stateful pass whose per-day row update does not
touch the `估值止盈总资产` field maps each output row's field back to some
input row's. -/
theorem scanStep_map_snd_valAssets {σ : Type} (f : σ → Row → σ × Row)
    (hf : ∀ s r, (f s r).2.valAssets = r.valAssets) (s : σ) (rows : List Row) :
    ∀ r' ∈ (scanStep f s rows).map Prod.snd, ∃ r1 ∈ rows, r'.valAssets = r1.valAssets := by
  intro r' hr'
  simp only [List.mem_map] at hr'
  obtain ⟨x, hx, hr'⟩ := hr'
  obtain ⟨s0, r0, hr0, _, hx0⟩ :=
    scanStep_mem f (fun _ => True) (fun _ _ _ => trivial) s rows trivial x hx
  exact ⟨r0, hr0, by rw [← hr', hx0, hf]⟩

/-- C7 (amended): trade events are emitted only by the valuation-band
strategy; every emitted event corresponds to an output day-row whose trade
mark equals the event's direction (buy or sell), and it carries that day's
recorded LumpSum, PeriodicInvest and BasePlusPeriodic return ratios — but
its valuation-return field is computed from the row's pre-update asset
field, which still holds the initialised value `initial_capital`, so it is
always `0` rather than that day's ValuationBand return ratio. -/
theorem trade_events_from_valuation_only (raw : List RawRow) (p : StratParams)
    (_hcap : 0 < p.initialCapital) :
    ∀ m ∈ (run_strategy raw p).markers,
      (m.type = "buy" ∨ m.type = "sell") ∧
      m.valuationReturn = 0 ∧
      ∃ r4 ∈ (run_strategy raw p).rows,
        r4.tradeMark = m.type ∧ m.date = r4.date ∧
        m.buyOnceReturn = r4.buyOnceRet ∧ m.normalReturn = r4.normalRet ∧
        m.baseReturn = r4.baseRet := by
  intro m hm
  rcases hdata : (filterRange p raw).map (mkRow p.initialCapital) with _ | ⟨d0, rest⟩ <;>
    simp only [run_strategy, hdata] at hm ⊢
  · exact absurd hm (List.not_mem_nil m)
  · rcases lastState_valStep_markers p.initialCapital (p.feeRate / 100)
        p.peLowerQuantile p.peUpperQuantile _ _ m hm with
      h | ⟨x, hx, hbs, hmark, hdate, hb, hn, hba, r0, hr0, hvr⟩
    · exact absurd h (List.not_mem_nil m)
    · refine ⟨hbs, ?_, x.2, List.mem_map_of_mem Prod.snd hx,
        hmark, hdate, hb, hn, hba⟩
      obtain ⟨r2, hr2, hva3⟩ :=
        scanStep_map_snd_valAssets (baseStep p.initialCapital p.investAmount (p.feeRate / 100))
          (fun _ _ => rfl) _ _ r0 hr0
      obtain ⟨r1, hr1, hva2⟩ :=
        scanStep_map_snd_valAssets (normalStep p.initialCapital p.investAmount (p.feeRate / 100))
          (fun _ _ => rfl) _ _ r2 hr2
      have hva1 : r1.valAssets = p.initialCapital := by
        rcases List.mem_map.mp hr1 with ⟨r1', hr1', rfl⟩
        rw [← hdata] at hr1'
        rcases List.mem_map.mp hr1' with ⟨raw', _, rfl⟩
        rfl
      rw [hvr, hva3, hva2, hva1, sub_self, zero_div, zero_mul, round_decimal_zero]

/-- A one-day sample input: 2023-01-03 at close 100 with valuation
percentile 0 (within the analysis range). -/
def sampleRaw : List RawRow := [⟨⟨2023, 1, 3⟩, 100, 10, 0, none, ""⟩]

/-- Sample parameters: capital 10000, range 2023, weekly amount 1000, base
ratio 50 %, fee 0.1 %, thresholds 30/70. -/
def sampleParams : StratParams :=
  ⟨10000, ⟨2023, 1, 1⟩, ⟨2023, 12, 31⟩, 1000, 50, 1/10, 30, 70⟩

/-- Counterexample for C7 as stated: on the sample input the single emitted
buy event records a valuation return of `0`, while the valuation-band
strategy's recorded return ratio on that very date is `-0.1` % — the event
does not carry the valuation strategy's current return ratio. -/
theorem trade_event_snapshot_counterexample :
    (run_strategy sampleRaw sampleParams).markers.map
        (fun m => (m.type, m.valuationReturn)) = [("buy", 0)] ∧
    (run_strategy sampleRaw sampleParams).rows.map (fun r => r.valRet) = [-1/10] ∧
    ((0 : ℚ) = -1/10 → False) := by
  refine ⟨?_, ?_, by norm_num⟩ <;> with_unfolding_all decide

/-- Witness for the amended C7 at the sample input's single buy marker. -/
theorem trade_events_from_valuation_only_witness :
    ((("buy" : String) = "buy" ∨ ("buy" : String) = "sell") ∧
      (0 : ℚ) = 0 ∧
      ∃ r4 ∈ (run_strategy sampleRaw sampleParams).rows,
        r4.tradeMark = "buy" ∧ (⟨2023, 1, 3⟩ : Date) = r4.date ∧
        (-1/10 : ℚ) = r4.buyOnceRet ∧ (-1/10 : ℚ) = r4.normalRet ∧
        (-3/50 : ℚ) = r4.baseRet) :=
  trade_events_from_valuation_only sampleRaw sampleParams (by norm_num [sampleParams])
    ⟨⟨2023, 1, 3⟩, "buy", -1/10, -1/10, -3/50, 0⟩
    (by with_unfolding_all decide)

/-- C9: the earnings matcher returns the mapping's value at the key
`"{year}-Q{quarter}"` of the calendar quarter containing the date when that
key is present; when absent it returns the value of the greatest key of the
mapping in the string ordering (the first key of
`sorted(keys, reverse=True)`); and it returns 0 for an empty mapping. -/
theorem match_epsTTM_spec (d : Date) (m : List (String × ℚ)) :
    (m = [] → match_epsTTM_by_date d m = 0) ∧
    (∀ v, m.lookup (quarterKey d) = some v → match_epsTTM_by_date d m = v) ∧
    (m ≠ [] → m.lookup (quarterKey d) = none →
      ∃ K, K ∈ m.map Prod.fst ∧ (∀ k ∈ m.map Prod.fst, k ≤ K) ∧
        match_epsTTM_by_date d m = (m.lookup K).getD 0) := by
  refine ⟨fun he => ?_, fun v hv => ?_, fun hne hmiss => ?_⟩
  · subst he
    rfl
  · have hne : m.isEmpty = false := by
      cases m with
      | nil => simp at hv
      | cons a l => rfl
    simp only [match_epsTTM_by_date, hne, Bool.false_eq_true, if_false, hv]
  · have hne' : m.isEmpty = false := by
      cases m with
      | nil => exact absurd rfl hne
      | cons a l => rfl
    have hlen : ((m.map Prod.fst).mergeSort (fun a b => decide (b ≤ a))).length =
        m.length := by
      rw [List.length_mergeSort, List.length_map]
    rcases hms : (m.map Prod.fst).mergeSort (fun a b => decide (b ≤ a)) with _ | ⟨k, ks⟩
    · rw [hms] at hlen
      cases m with
      | nil => exact absurd rfl hne
      | cons a l => simp at hlen
    · have hsorted : (List.mergeSort (m.map Prod.fst)
          (fun a b => decide (b ≤ a))).Pairwise (fun a b => decide (b ≤ a)) :=
        List.sorted_mergeSort
          (fun a b c hab hbc => by
            simp only [decide_eq_true_eq] at hab hbc ⊢
            exact le_trans hbc hab)
          (fun a b => by
            rcases le_total b a with h | h
            · simp [h]
            · simp [h])
          (m.map Prod.fst)
      refine ⟨k, ?_, ?_, ?_⟩
      · have : k ∈ (m.map Prod.fst).mergeSort (fun a b => decide (b ≤ a)) := by
          rw [hms]
          exact List.mem_cons_self _ _
        exact List.mem_mergeSort.mp this
      · intro k' hk'
        have hk'' : k' ∈ (m.map Prod.fst).mergeSort (fun a b => decide (b ≤ a)) :=
          List.mem_mergeSort.mpr hk'
        rw [hms] at hk'' hsorted
        rcases List.mem_cons.mp hk'' with rfl | hk''
        · exact le_refl _
        · have := (List.pairwise_cons.mp hsorted).1 k' hk''
          simpa using this
      · simp only [match_epsTTM_by_date, hne', Bool.false_eq_true, if_false, hmiss, hms]

/-- Witness for C9 at a concrete mapping with the quarter key present:
February 2024 lies in `2024-Q1`. -/
theorem match_epsTTM_spec_witness :
    match_epsTTM_by_date ⟨2024, 2, 1⟩ [("2023-Q4", 5), ("2024-Q1", 7)] = 7 :=
  (match_epsTTM_spec ⟨2024, 2, 1⟩ [("2023-Q4", 5), ("2024-Q1", 7)]).2.1 7 (by decide)

/-! ## Decimal string keys: injectivity of `Nat.repr` and `pad2` -/

/-- Numeric value of a decimal digit character. -/
def digitVal (c : Char) : ℕ := c.toNat - 48

/-- Base-10 value of a digit string, folded onto an accumulator. -/
def strVal (a : ℕ) (l : List Char) : ℕ :=
  l.foldl (fun acc c => 10 * acc + digitVal c) a

theorem strVal_append (a : ℕ) (l1 l2 : List Char) :
    strVal a (l1 ++ l2) = strVal (strVal a l1) l2 :=
  List.foldl_append ..

theorem digitVal_digitChar : ∀ r < 10, digitVal (Nat.digitChar r) = r := by decide

theorem toDigitsCore_append10 :
    ∀ (fuel n : ℕ) (ds : List Char),
      Nat.toDigitsCore 10 fuel n ds = Nat.toDigitsCore 10 fuel n [] ++ ds
  | 0, _, _ => by simp [Nat.toDigitsCore]
  | fuel + 1, n, ds => by
    simp only [Nat.toDigitsCore]
    by_cases h : n / 10 = 0
    · simp [h]
    · rw [if_neg h, if_neg h, toDigitsCore_append10 fuel (n / 10) (Nat.digitChar (n % 10) :: ds),
        toDigitsCore_append10 fuel (n / 10) [Nat.digitChar (n % 10)], List.append_assoc]
      rfl

theorem strVal_toDigitsCore :
    ∀ (fuel n : ℕ), n < 10 ^ fuel → ∀ a : ℕ,
      strVal a (Nat.toDigitsCore 10 fuel n []) =
        a * 10 ^ (Nat.toDigitsCore 10 fuel n []).length + n
  | 0, n, hn, a => by
    interval_cases n
    simp [Nat.toDigitsCore, strVal]
  | fuel + 1, n, hn, a => by
    simp only [Nat.toDigitsCore]
    by_cases h : n / 10 = 0
    · have hn10 : n < 10 := by omega
      rw [if_pos h]
      simp only [strVal, List.foldl_cons, List.foldl_nil, List.length_cons,
        List.length_nil]
      rw [digitVal_digitChar (n % 10) (Nat.mod_lt _ (by norm_num))]
      have : n % 10 = n := Nat.mod_eq_of_lt hn10
      rw [this]
      ring
    · rw [if_neg h, toDigitsCore_append10 fuel (n / 10) [Nat.digitChar (n % 10)]]
      have hdiv : n / 10 < 10 ^ fuel := by
        rw [Nat.div_lt_iff_lt_mul (by norm_num : 0 < 10)]
        calc n < 10 ^ (fuel + 1) := hn
        _ = 10 ^ fuel * 10 := by ring
      rw [strVal_append, strVal_toDigitsCore fuel (n / 10) hdiv a]
      simp only [strVal, List.foldl_cons, List.foldl_nil, List.length_append,
        List.length_cons, List.length_nil]
      rw [digitVal_digitChar (n % 10) (Nat.mod_lt _ (by norm_num))]
      have := Nat.div_add_mod n 10
      ring_nf
      omega

theorem strVal_repr (n : ℕ) : strVal 0 (Nat.repr n).data = n := by
  have hlt : n < 10 ^ (n + 1) := by
    calc n < 2 ^ n := Nat.lt_two_pow n
    _ ≤ 10 ^ n := Nat.pow_le_pow_left (by norm_num) n
    _ ≤ 10 ^ (n + 1) := Nat.pow_le_pow_right (by norm_num) (Nat.le_succ n)
  have h := strVal_toDigitsCore (n + 1) n hlt 0
  simpa [Nat.repr, Nat.toDigits, List.asString] using h

theorem repr_injective {m n : ℕ} (h : Nat.repr m = Nat.repr n) : m = n := by
  have := congrArg (fun s => strVal 0 s.data) h
  simpa [strVal_repr] using this

theorem strVal_pad2 (w : ℕ) : strVal 0 (pad2 w).data = w := by
  unfold pad2
  by_cases h : w < 10
  · rw [if_pos h]
    have hdata : (("0" ++ toString w) : String).data = '0' :: (toString w).data := rfl
    rw [hdata]
    show strVal (10 * 0 + digitVal '0') (toString w).data = w
    have : (10 * 0 + digitVal '0') = 0 := by decide
    rw [this]
    exact strVal_repr w
  · rw [if_neg h]
    exact strVal_repr w

theorem pad2_injective {w1 w2 : ℕ} (h : pad2 w1 = pad2 w2) : w1 = w2 := by
  have := congrArg (fun s => strVal 0 s.data) h
  simpa [strVal_pad2] using this

theorem pad2_length_le (w : ℕ) (hw : w < 100) : (pad2 w).data.length = 2 := by
  revert hw
  revert w
  decide

theorem repr_data_injective {m n : ℕ} (h : (Nat.repr m).data = (Nat.repr n).data) :
    m = n := by
  have := congrArg (strVal 0) h
  simpa [strVal_repr] using this

theorem pad2_data_injective {w1 w2 : ℕ} (h : (pad2 w1).data = (pad2 w2).data) :
    w1 = w2 := by
  have := congrArg (strVal 0) h
  simpa [strVal_pad2] using this

/-! ## Bounds on the ISO week number for calendar dates -/

theorem daysBeforeMonth_le (y m : ℕ) (hm : m ≤ 12) : daysBeforeMonth y m ≤ 335 := by
  unfold daysBeforeMonth
  have htab : ∀ k < 13,
      ([0, 0, 31, 59, 90, 120, 151, 181, 212, 243, 273, 304, 334] : List ℕ).getD k 0 ≤ 334 := by
    decide
  have := htab m (by omega)
  split_ifs <;> omega

theorem ymd2ord_le (d : Date) (hm : d.month ≤ 12) (hd : d.day ≤ 31) :
    ymd2ord d ≤ daysBeforeYear d.year + 366 := by
  unfold ymd2ord
  have := daysBeforeMonth_le d.year d.month hm
  omega

theorem ymd2ord_jan1 (y : ℕ) : ymd2ord ⟨y, 1, 1⟩ = daysBeforeYear y + 1 := by
  show daysBeforeYear y + daysBeforeMonth y 1 + 1 = daysBeforeYear y + 1
  have h : daysBeforeMonth y 1 = 0 := by
    unfold daysBeforeMonth
    rw [if_neg]
    · rfl
    · rintro ⟨h2, -⟩
      omega
  rw [h]

theorem isoweek1monday_bounds (y : ℕ) :
    (daysBeforeYear y : ℤ) - 5 ≤ isoweek1monday y ∧
      isoweek1monday y ≤ (daysBeforeYear y : ℤ) + 4 := by
  simp only [isoweek1monday, ymd2ord_jan1]
  split_ifs <;> constructor <;> push_cast <;> omega

/-- For a calendar date (month ≤ 12, day ≤ 31) the ISO week number computed
by `isocalendar` is at most 54 (hence always two digits or fewer). -/
theorem isocalendar_week_le (d : Date) (hm : d.month ≤ 12) (hd : d.day ≤ 31) :
    (isocalendar d).2 ≤ 54 := by
  have h366 : ymd2ord d ≤ daysBeforeYear d.year + 366 := ymd2ord_le d hm hd
  obtain ⟨hl, hu⟩ := isoweek1monday_bounds d.year
  obtain ⟨hl', hu'⟩ := isoweek1monday_bounds (d.year - 1)
  have hdby : daysBeforeYear d.year ≤ daysBeforeYear (d.year - 1) + 366 := by
    simp only [daysBeforeYear]
    omega
  simp only [isocalendar]
  rw [Int.fdiv_eq_ediv _ (by norm_num)]
  split_ifs with h1 h2
  · rw [Int.fdiv_eq_ediv _ (by norm_num)]
    dsimp only
    omega
  · dsimp only
    omega
  · dsimp only
    omega

/-- Counterexample for C2 as stated: 2024-01-01 (ISO week 1 of ISO year
2024) and 2024-12-30 (ISO week 1 of ISO year 2025) receive the *same*
bucket key "202401", while 2024-12-30 and 2025-01-01 lie in the same ISO
week of the same ISO year but receive *different* keys — both directions
of the claimed equivalence fail. -/
theorem get_iso_week_iso_bucket_counterexample :
    get_iso_week ⟨2024, 1, 1⟩ = get_iso_week ⟨2024, 12, 30⟩ ∧
    isocalendar ⟨2024, 1, 1⟩ ≠ isocalendar ⟨2024, 12, 30⟩ ∧
    isocalendar ⟨2024, 12, 30⟩ = isocalendar ⟨2025, 1, 1⟩ ∧
    get_iso_week ⟨2024, 12, 30⟩ ≠ get_iso_week ⟨2025, 1, 1⟩ := by
  refine ⟨?_, ?_, ?_, ?_⟩ <;> decide

/-- C2 (amended): for calendar dates the week-bucket keyer assigns two
dates the same key iff they have the same *calendar* year and the same ISO
week number — not the same ISO week of the same ISO year, which fails at
year boundaries. -/
theorem get_iso_week_eq_iff (d1 d2 : Date)
    (h1m : d1.month ≤ 12) (h1d : d1.day ≤ 31) (h2m : d2.month ≤ 12) (h2d : d2.day ≤ 31) :
    get_iso_week d1 = get_iso_week d2 ↔
      (d1.year = d2.year ∧ (isocalendar d1).2 = (isocalendar d2).2) := by
  constructor
  · intro h
    have hw1 : (isocalendar d1).2 ≤ 54 := isocalendar_week_le d1 h1m h1d
    have hw2 : (isocalendar d2).2 ≤ 54 := isocalendar_week_le d2 h2m h2d
    have hdata : (toString d1.year).data ++ (pad2 (isocalendar d1).2).data =
        (toString d2.year).data ++ (pad2 (isocalendar d2).2).data :=
      congrArg String.data h
    have hsplit := List.append_inj' hdata
      (by rw [pad2_length_le _ (by omega), pad2_length_le _ (by omega)])
    exact ⟨repr_data_injective hsplit.1, pad2_data_injective hsplit.2⟩
  · rintro ⟨hy, hw⟩
    unfold get_iso_week
    rw [hy, hw]

/-- Witness for the amended C2: 2023-01-10 and 2023-01-12 lie in the same
week and share the key. -/
theorem get_iso_week_eq_iff_witness :
    get_iso_week ⟨2023, 1, 10⟩ = get_iso_week ⟨2023, 1, 12⟩ :=
  (get_iso_week_eq_iff ⟨2023, 1, 10⟩ ⟨2023, 1, 12⟩
      (by norm_num) (by norm_num) (by norm_num) (by norm_num)).mpr (by decide)

/-! ## Sortedness of the percentile ladder -/

theorem getD_mono_of_sorted {l : List ℚ} (hl : l.Pairwise (· ≤ ·)) {i j : ℕ}
    (hij : i ≤ j) (hj : j < l.length) : l.getD i 0 ≤ l.getD j 0 := by
  rcases eq_or_lt_of_le hij with rfl | hij
  · exact le_refl _
  · have hi : i < l.length := lt_trans hij hj
    rw [List.getD_eq_getElem?_getD, List.getD_eq_getElem?_getD,
      List.getElem?_eq_getElem hi, List.getElem?_eq_getElem hj]
    simp only [Option.getD_some]
    exact List.pairwise_iff_getElem.mp hl i j hi hj hij

theorem interpPercentile_nil (p : ℕ) : interpPercentile [] p = 0 := by
  simp [interpPercentile]

/-- Linear interpolation over a sorted list is monotone in the percentile
position (for positions up to 100). -/
theorem interpPercentile_mono {s : List ℚ} (hs : s.Pairwise (· ≤ ·)) {p q : ℕ}
    (hpq : p ≤ q) (hq100 : q ≤ 100) :
    interpPercentile s p ≤ interpPercentile s q := by
  rcases Nat.eq_zero_or_pos s.length with hn | hn
  · have hnil : s = [] := List.eq_nil_of_length_eq_zero hn
    subst hnil
    simp [interpPercentile]
  · have hncast : (1 : ℚ) ≤ (s.length : ℚ) := by exact_mod_cast hn
    have hn1 : (0 : ℚ) ≤ (s.length : ℚ) - 1 := by linarith
    have hpqc : (p : ℚ) ≤ (q : ℚ) := by exact_mod_cast hpq
    have hq100c : (q : ℚ) ≤ 100 := by exact_mod_cast hq100
    have h0p : (0 : ℚ) ≤ (p : ℚ) * ((s.length : ℚ) - 1) / 100 :=
      div_nonneg (mul_nonneg (Nat.cast_nonneg p) hn1) (by norm_num)
    have hpq' : (p : ℚ) * ((s.length : ℚ) - 1) / 100 ≤
        (q : ℚ) * ((s.length : ℚ) - 1) / 100 := by
      apply div_le_div_of_nonneg_right ?_ (by norm_num)
      exact mul_le_mul_of_nonneg_right hpqc hn1
    have hqle : (q : ℚ) * ((s.length : ℚ) - 1) / 100 ≤ (s.length : ℚ) - 1 := by
      rw [div_le_iff₀ (by norm_num : (0:ℚ) < 100)]
      nlinarith
    have hfp0 : 0 ≤ ⌊(p : ℚ) * ((s.length : ℚ) - 1) / 100⌋ :=
      Int.le_floor.mpr (by exact_mod_cast h0p)
    have hfq0 : 0 ≤ ⌊(q : ℚ) * ((s.length : ℚ) - 1) / 100⌋ :=
      Int.le_floor.mpr (by exact_mod_cast le_trans h0p hpq')
    have hfmono : ⌊(p : ℚ) * ((s.length : ℚ) - 1) / 100⌋ ≤
        ⌊(q : ℚ) * ((s.length : ℚ) - 1) / 100⌋ := Int.floor_le_floor hpq'
    have hfqb : ⌊(q : ℚ) * ((s.length : ℚ) - 1) / 100⌋ ≤ (s.length : ℤ) - 1 := by
      have h1 : ((s.length : ℤ) - 1 : ℤ) = ⌊((s.length : ℚ) - 1)⌋ := by
        rw [show ((s.length : ℚ) - 1) = (((s.length : ℤ) - 1 : ℤ) : ℚ) by push_cast; ring,
          Int.floor_intCast]
      rw [h1]
      exact Int.floor_le_floor hqle
    simp only [interpPercentile]
    set fp := ⌊(p : ℚ) * ((s.length : ℚ) - 1) / 100⌋ with hfp_def
    set fq := ⌊(q : ℚ) * ((s.length : ℚ) - 1) / 100⌋ with hfq_def
    have hlopc : ((fp.toNat : ℕ) : ℚ) = (fp : ℚ) := by
      rw [← Int.cast_natCast, Int.toNat_of_nonneg hfp0]
    have hloqc : ((fq.toNat : ℕ) : ℚ) = (fq : ℚ) := by
      rw [← Int.cast_natCast, Int.toNat_of_nonneg hfq0]
    have hfloorp1 : (fp : ℚ) ≤ (p : ℚ) * ((s.length : ℚ) - 1) / 100 := Int.floor_le _
    have hfloorp2 : (p : ℚ) * ((s.length : ℚ) - 1) / 100 < (fp : ℚ) + 1 :=
      Int.lt_floor_add_one _
    have hfloorq1 : (fq : ℚ) ≤ (q : ℚ) * ((s.length : ℚ) - 1) / 100 := Int.floor_le _
    have hfloorq2 : (q : ℚ) * ((s.length : ℚ) - 1) / 100 < (fq : ℚ) + 1 :=
      Int.lt_floor_add_one _
    have hlop_le : fp.toNat ≤ s.length - 1 := by omega
    have hloq_le : fq.toNat ≤ s.length - 1 := by omega
    have hhip_le : min (fp.toNat + 1) (s.length - 1) ≤ s.length - 1 := min_le_right _ _
    have hhiq_le : min (fq.toNat + 1) (s.length - 1) ≤ s.length - 1 := min_le_right _ _
    have hab_p : s.getD fp.toNat 0 ≤ s.getD (min (fp.toNat + 1) (s.length - 1)) 0 :=
      getD_mono_of_sorted hs (le_min (Nat.le_succ _) hlop_le) (by omega)
    have hab_q : s.getD fq.toNat 0 ≤ s.getD (min (fq.toNat + 1) (s.length - 1)) 0 :=
      getD_mono_of_sorted hs (le_min (Nat.le_succ _) hloq_le) (by omega)
    rcases eq_or_lt_of_le hfmono with heq | hlt
    · rw [← heq]
      have hdiff : (0 : ℚ) ≤ ((q : ℚ) * ((s.length : ℚ) - 1) / 100 -
          (p : ℚ) * ((s.length : ℚ) - 1) / 100) := by linarith
      nlinarith [hab_p]
    · -- different segments: chain through the intermediate entries
      have ht1 : (p : ℚ) * ((s.length : ℚ) - 1) / 100 - (fp.toNat : ℚ) < 1 := by
        rw [hlopc]
        linarith
      have ht0 : (0 : ℚ) ≤ (p : ℚ) * ((s.length : ℚ) - 1) / 100 - (fp.toNat : ℚ) := by
        rw [hlopc]
        linarith
      have h1 : s.getD fp.toNat 0 + ((p : ℚ) * ((s.length : ℚ) - 1) / 100 -
            (fp.toNat : ℚ)) * (s.getD (min (fp.toNat + 1) (s.length - 1)) 0 -
            s.getD fp.toNat 0) ≤
          s.getD (min (fp.toNat + 1) (s.length - 1)) 0 := by
        nlinarith [hab_p, ht1, ht0]
      have h2 : s.getD (min (fp.toNat + 1) (s.length - 1)) 0 ≤ s.getD fq.toNat 0 := by
        apply getD_mono_of_sorted hs ?_ (by omega)
        have hstep : fp.toNat + 1 ≤ fq.toNat := by omega
        exact le_trans (min_le_left _ _) hstep
      have ht2 : (0 : ℚ) ≤ (q : ℚ) * ((s.length : ℚ) - 1) / 100 - (fq.toNat : ℚ) := by
        rw [hloqc]
        linarith
      have h3 : s.getD fq.toNat 0 ≤ s.getD fq.toNat 0 + ((q : ℚ) *
            ((s.length : ℚ) - 1) / 100 - (fq.toNat : ℚ)) *
            (s.getD (min (fq.toNat + 1) (s.length - 1)) 0 - s.getD fq.toNat 0) := by
        nlinarith [hab_q, ht2]
      linarith

/-- The 101 cut-points of the percentile ladder are non-decreasing. -/
theorem percentileLadder_sorted (l : List ℚ) :
    (percentileLadder l).Pairwise (· ≤ ·) := by
  unfold percentileLadder
  have hsorted : (l.mergeSort (· ≤ ·)).Pairwise (· ≤ ·) := by
    have h := @List.sorted_mergeSort ℚ (fun a b : ℚ => decide (a ≤ b))
      (fun a b c hab hbc => by
        simp only [decide_eq_true_eq] at hab hbc ⊢
        exact le_trans hab hbc)
      (fun a b => by
        rcases le_total a b with h | h
        · simp [h]
        · simp [h]) l
    exact h.imp (fun h => by simpa using h)
  have hrange : (List.range 101).Pairwise
      (fun a b => interpPercentile (l.mergeSort (· ≤ ·)) a ≤
        interpPercentile (l.mergeSort (· ≤ ·)) b) := by
    refine (List.pairwise_lt_range 101).imp_of_mem ?_
    intro a b _ hb hab
    exact interpPercentile_mono hsorted (le_of_lt hab)
      (by have := List.mem_range.mp hb; omega)
  exact hrange.map _ (fun a b h => h)

/-- On a sorted list, counting the entries strictly below `v`
(`np.searchsorted`, side left) gives exactly the lowest position whose
entry is `≥ v` (the length if there is none). -/
theorem countP_eq_findIdx_of_sorted (v : ℚ) :
    ∀ (l : List ℚ), l.Pairwise (· ≤ ·) →
      l.countP (fun c => decide (c < v)) =
        (l.findIdx? (fun c => decide (v ≤ c))).getD l.length
  | [], _ => rfl
  | c :: l', hl => by
    have hl' : l'.Pairwise (· ≤ ·) := (List.pairwise_cons.mp hl).2
    have hc : ∀ x ∈ l', c ≤ x := (List.pairwise_cons.mp hl).1
    by_cases h : c < v
    · rw [List.countP_cons_of_pos _ _ (by simpa using h),
        List.findIdx?_cons, if_neg (by simpa using not_le.mpr h), List.findIdx?_succ,
        countP_eq_findIdx_of_sorted v l' hl']
      cases hfi : l'.findIdx? (fun c => decide (v ≤ c)) with
      | none => simp [List.length_cons]
      | some j => simp
    · have hvc : v ≤ c := not_lt.mp h
      rw [List.countP_cons_of_neg _ _ (by simpa using h),
        List.findIdx?_cons, if_pos (by simpa using hvc),
        List.countP_eq_zero.mpr]
      · rfl
      · intro x hx
        simp only [decide_eq_true_eq, not_lt]
        exact le_trans hvc (hc x hx)

/-- C3: at every index the code actually ranks (at least 21 values in the
series and by the index, at least 5 valid values so far, and a strictly
positive current value), the recorded percentile equals the spec formula:
the lowest position of the 101-point ladder over the valid prefix whose
cut-point is `≥ v[i]`, clamped to 100 and rounded half-up to two decimals;
and consequently every recorded percentile lies in `[0, 100]`. -/
theorem pe_quantile_matches_ladder_spec :
    (∀ (v : List ℚ) (i : ℕ), i < v.length → 20 ≤ i → 0 < v.getD i 0 →
      5 ≤ ((v.take (i + 1)).filter (fun x => decide (0 < x))).length →
      (calculate_pe_quantile v).getD i 0 = pe_quantile_spec v i) ∧
    (∀ (v : List ℚ) (i : ℕ), 0 ≤ (calculate_pe_quantile v).getD i 0 ∧
      (calculate_pe_quantile v).getD i 0 ≤ 100) := by
  constructor
  · intro v i hi h20 hpos h5
    have hlen : ¬ v.length < 21 := by omega
    unfold calculate_pe_quantile
    rw [if_neg hlen, getD_map_range hi]
    unfold peQuantileAt
    rw [if_neg (by omega), if_neg (not_le.mpr hpos), if_neg (by omega)]
    unfold pe_quantile_spec lowestPosGE searchsortedLeft
    rw [countP_eq_findIdx_of_sorted (v.getD i 0) _ (percentileLadder_sorted _),
      div_mul_cancel₀ _ (by norm_num : (100:ℚ) ≠ 0)]
  · intro v i
    unfold calculate_pe_quantile
    by_cases hlen : v.length < 21
    · rw [if_pos hlen, List.getD_eq_getElem?_getD, List.getElem?_replicate]
      split <;> norm_num
    · rw [if_neg hlen]
      by_cases hi : i < v.length
      · rw [getD_map_range hi]
        unfold peQuantileAt
        split_ifs with h1 h2 h3
        · norm_num
        · norm_num
        · norm_num
        · rw [div_mul_cancel₀ _ (by norm_num : (100:ℚ) ≠ 0),
            show ((100:ℚ)) = ((100:ℕ) : ℚ) by norm_num, ← Nat.cast_min,
            round_decimal_natCast]
          constructor
          · positivity
          · exact_mod_cast min_le_right _ 100
      · rw [List.getD_eq_default]
        · norm_num
        · rw [List.length_map, List.length_range]
          omega

/-- Witness for C3 at the series `1, 2, …, 21` and index 20: the recorded
value (100) equals the spec formula's result. -/
theorem pe_quantile_matches_ladder_spec_witness :
    (calculate_pe_quantile
        [1, 2, 3, 4, 5, 6, 7, 8, 9, 10, 11, 12, 13, 14, 15, 16, 17, 18, 19, 20,
          21]).getD 20 0 =
      pe_quantile_spec
        [1, 2, 3, 4, 5, 6, 7, 8, 9, 10, 11, 12, 13, 14, 15, 16, 17, 18, 19, 20, 21] 20 :=
  pe_quantile_matches_ladder_spec.1
    [1, 2, 3, 4, 5, 6, 7, 8, 9, 10, 11, 12, 13, 14, 15, 16, 17, 18, 19, 20, 21] 20
    (by decide) (by decide) (by with_unfolding_all decide) (by with_unfolding_all decide)

example : isocalendar ⟨2024, 1, 1⟩ = (2024, 1) := by decide
example : isocalendar ⟨2024, 12, 30⟩ = (2025, 1) := by decide
example : isocalendar ⟨2025, 1, 1⟩ = (2025, 1) := by decide
example : isocalendar ⟨2023, 1, 1⟩ = (2022, 52) := by decide
example : get_iso_week ⟨2024, 1, 1⟩ = "202401" := by decide
example : get_iso_week ⟨2024, 12, 30⟩ = "202401" := by decide
example : get_iso_week ⟨2025, 1, 1⟩ = "202501" := by decide

end StockApp
